import Mathlib

/-
Verification development for the PageRank-based graph ranking core
(`graph_ranker.py`) of the claude-comms repository.

Shallow embedding conventions:
- Python floats are embedded as elements of a linear ordered field `α`
  (instantiated at `ℚ` for executable checks and at `ℝ` where the source
  computes real square roots); float rounding is out of scope.
- Python sets and dicts are embedded as lists (dicts as association lists
  with distinct keys); `set`/`Counter` iteration order is abstracted by
  `List.dedup`, which keeps one occurrence per element.
- `math.sqrt` is abstracted as an explicit `sqrtFn : Nat → α` parameter of
  graph construction (the reference count passed to it is a natural
  number); theorems instantiate it with `Real.sqrt` where the exact
  square-root value matters.
- The external PageRank solver (`networkx.pagerank`) is not part of the
  repository source; it is modelled from the spec (section 4.4): power
  iteration with personalization used for restart and dangling
  redistribution, division-by-zero degeneracy reported as an error value,
  and iteration stopping at `max_iter` or at tolerance `tol`.
- Python exceptions are embedded as `Except` error values.
-/

/-- A code symbol tag from tree-sitter parsing (class `Tag`). -/
structure Tag where
  rel_fname : String
  fname : String
  line : Nat
  name : String
  kind : String
deriving DecidableEq, Repr

/-- One edge of the dependency multigraph: `referencer -> definer` with a
weight and the identifier that produced the edge (`G.add_edge(... weight=..., ident=...)`). -/
structure Edge (α : Type) where
  src : String
  dst : String
  weight : α
  ident : String
deriving DecidableEq, Repr

/-- The dependency multigraph: the ordered list of inserted edges
(`nx.MultiDiGraph` keeps parallel edges separately). -/
structure Graph (α : Type) where
  edges : List (Edge α)
deriving DecidableEq, Repr

/-- The node set of the multigraph: every endpoint of an inserted edge
(`networkx.add_edge` adds both endpoints as nodes), without duplicates. -/
def Graph.nodeList {α : Type} (g : Graph α) : List String :=
  (g.edges.flatMap (fun e => [e.src, e.dst])).dedup

/-- Total weight of the out-edges of `n` (`out_degree(n, weight="weight")`). -/
def outWeight {α : Type} [LinearOrderedField α] (edges : List (Edge α)) (n : String) : α :=
  ((edges.filter (fun e => e.src = n)).map Edge.weight).sum

/-- Importance multiplier for an identifier
(`GraphRanker._calculate_identifier_multiplier`). Character membership and
the leading-underscore test (`"_" in ident`, `ident.startswith("_")`) are
expressed on the character list of the string. -/
def calculateIdentifierMultiplier {α : Type} [LinearOrderedField α]
    (ident : String) (mentionedIdents : List String) : α :=
  let m1 : α := if ident ∈ mentionedIdents then 1 * 10 else 1
  let isSnake := ident.toList.contains '_' && ident.toList.any Char.isAlpha
  let isKebab := ident.toList.contains '-' && ident.toList.any Char.isAlpha
  let isCamel := ident.toList.any Char.isUpper && ident.toList.any Char.isLower
  let m2 : α := if (isSnake || isKebab || isCamel) ∧ 8 ≤ ident.length then m1 * 10 else m1
  if ident.toList.head? = some '_' then m2 * (1 / 10) else m2

/-- Identifiers with at least one definition tag (keys of the `defines` map). -/
def defNames (tags : List Tag) : List String :=
  ((tags.filter (fun t => t.kind = "def")).map Tag.name).dedup

/-- The distinct files defining `ident` (the set `defines[ident]`). -/
def defFiles (tags : List Tag) (ident : String) : List String :=
  ((tags.filter (fun t => t.kind = "def" ∧ t.name = ident)).map Tag.rel_fname).dedup

/-- The reference occurrences of `ident`, one entry per referencing tag
(the multiset `references[ident]`). -/
def refOccurrences (tags : List Tag) (ident : String) : List String :=
  (tags.filter (fun t => t.kind = "ref" ∧ t.name = ident)).map Tag.rel_fname

/-- The distinct files referencing `ident` (keys of `Counter(references[ident])`). -/
def refFilesDedup (tags : List Tag) (ident : String) : List String :=
  (refOccurrences tags ident).dedup

/-- Number of reference occurrences of `ident` in file `f`
(`Counter(references[ident])[f]`). -/
def numRefs (tags : List Tag) (ident : String) (f : String) : Nat :=
  (refOccurrences tags ident).count f

/-- `GraphRanker.build_dependency_graph`: self-edges of weight 0.1 for
definitions with no references anywhere, then one edge per
(connected identifier, referencing file, defining file) with weight
`multiplier * sqrt(num_refs)`. -/
def buildDependencyGraph (α : Type) [LinearOrderedField α] (sqrtFn : Nat → α)
    (tags : List Tag) (chatFiles : List String) (mentionedIdents : List String) : Graph α :=
  let selfEdges :=
    ((defNames tags).filter (fun i => refOccurrences tags i = [])).flatMap
      (fun i => (defFiles tags i).map (fun d => Edge.mk d d ((1 : α) / 10) i))
  let connectedIdents := (defNames tags).filter (fun i => refOccurrences tags i ≠ [])
  let connectedEdges := connectedIdents.flatMap (fun i =>
    let definers := defFiles tags i
    let baseMultiplier : α :=
      calculateIdentifierMultiplier i mentionedIdents *
        (if 5 < definers.length then (1 : α) / 10 else 1)
    (refFilesDedup tags i).flatMap (fun r =>
      definers.map (fun d =>
        let multiplier := baseMultiplier * (if r ∈ chatFiles then (50 : α) else 1)
        Edge.mk r d (multiplier * sqrtFn (numRefs tags i r)) i)))
  Graph.mk (selfEdges ++ connectedEdges)

/-- Split a character list at every occurrence of a separator character
(the character-level split under `pathlib`'s handling of `"/"`). -/
def splitOnChar (sep : Char) : List Char → List (List Char)
  | [] => [[]]
  | c :: cs =>
    let r := splitOnChar sep cs
    if c = sep then [] :: r
    else (c :: r.headD []) :: r.tail

/-- The non-empty path segments of a (relative) path, as in `pathlib.Path(p).parts`. -/
def pathParts (p : String) : List String :=
  ((splitOnChar '/' p.toList).map String.mk).filter (fun s => s ≠ "")

/-- The final path segment, as in `pathlib.Path(p).name` (empty for an empty path). -/
def pathBasename (p : String) : String :=
  (pathParts p).getLastD ""

/-- The root part of `os.path.splitext`: drop the extension after the last
dot, unless every character before that dot is itself a dot. -/
def splitextRoot (b : String) : String :=
  let cs := b.toList
  match cs.reverse.findIdx? (fun c => c == '.') with
  | none => b
  | some k =>
    let sepIndex := cs.length - 1 - k
    if (cs.take sepIndex).any (fun c => c != '.') then String.mk (cs.take sepIndex) else b

/-- Whether some checked path component of `f` (directory segment, basename
with extension, basename without extension) is a mentioned identifier. -/
def pathMatchesMentioned (f : String) (mentionedIdents : List String) : Prop :=
  ∃ c ∈ pathParts f ++ [pathBasename f, splitextRoot (pathBasename f)], c ∈ mentionedIdents

instance (f : String) (mentionedIdents : List String) :
    Decidable (pathMatchesMentioned f mentionedIdents) := by
  unfold pathMatchesMentioned; infer_instance

/-- `GraphRanker.create_personalization_vector` with boost parameter
`boost` (`self.personalization_boost`, default 100.0). -/
def createPersonalizationVector (α : Type) [LinearOrderedField α] (boost : α)
    (chatFiles mentionedFiles mentionedIdents allFiles : List String) :
    List (String × α) :=
  let numFiles : Nat := if allFiles ≠ [] then allFiles.length else max 100 chatFiles.length
  let basePersonalize : α := boost / (numFiles : α)
  allFiles.filterMap (fun f =>
    let c1 : α := if f ∈ chatFiles then 0 + basePersonalize else 0
    let c2 : α := if f ∈ mentionedFiles then max c1 basePersonalize else c1
    let c3 : α :=
      if mentionedIdents ≠ [] ∧ pathMatchesMentioned f mentionedIdents then
        c2 + basePersonalize
      else c2
    if 0 < c3 then some (f, c3) else none)

/-- The numerical-degeneracy failure of the external solver
(Python `ZeroDivisionError`). -/
inductive PRErr where
  | divByZero
deriving DecidableEq, Repr

/-- Whether some node has out-edges whose total weight is zero: the
stochastic normalization of the solver divides by zero there. -/
def hasZeroOutWeightNode {α : Type} [LinearOrderedField α] (g : Graph α) : Prop :=
  ∃ n ∈ g.nodeList, g.edges.filter (fun e => e.src = n) ≠ [] ∧ outWeight g.edges n = 0

instance {α : Type} [LinearOrderedField α] (g : Graph α) :
    Decidable (hasZeroOutWeightNode g) := by
  unfold hasZeroOutWeightNode; infer_instance

/-- Normalize an optional bias dict to a distribution over nodes: absent
means uniform `1/n`; present is divided by its value sum, a zero sum being
a division by zero (`p = {k: v / s for k, v in personalization.items()}`). -/
def normalizeDist {α : Type} [LinearOrderedField α] (n : Nat)
    (d : Option (List (String × α))) : Except PRErr (String → α) :=
  match d with
  | none => .ok (fun _ => 1 / (n : α))
  | some pv =>
    let s := (pv.map Prod.snd).sum
    if s = 0 then .error .divByZero
    else .ok (fun x => ((pv.lookup x).getD 0) / s)

/-- Rank flowing into `n` along in-edges of the row-normalized graph:
`sum of x[src] * weight / out_weight(src)` over edges into `n`. -/
def inFlow {α : Type} [LinearOrderedField α] (edges : List (Edge α)) (x : String → α)
    (n : String) : α :=
  ((edges.filter (fun e => e.dst = n)).map
    (fun e => x e.src * e.weight / outWeight edges e.src)).sum

/-- Nodes with zero total out-weight (`out_degree(n, weight) == 0.0`). -/
def danglingList {α : Type} [LinearOrderedField α] (g : Graph α) : List String :=
  g.nodeList.filter (fun n => outWeight g.edges n = 0)

/-- One power-iteration step of the solver:
`x[n] = alpha * inflow + danglesum * dangling_weights[n] + (1 - alpha) * p[n]`
where `danglesum = alpha * sum of x over dangling nodes`. -/
def prStep {α : Type} [LinearOrderedField α] (g : Graph α) (alpha : α)
    (p dw : String → α) (x : String → α) : String → α :=
  let danglesum := alpha * ((danglingList g).map x).sum
  fun n => alpha * inFlow g.edges x n + danglesum * dw n + (1 - alpha) * p n

/-- L1 distance between two iterates over the node list
(`err = sum(abs(x[n] - xlast[n]) for n in x)`). -/
def l1diff {α : Type} [LinearOrderedField α] (nodes : List String) (x y : String → α) : α :=
  (nodes.map (fun n => |x n - y n|)).sum

/-- The solver iteration: step, return the new iterate when the L1 change
is below `n * tol`, and stop after `max_iter` steps. -/
def prLoop {α : Type} [LinearOrderedField α] (g : Graph α) (alpha tol : α)
    (p dw : String → α) : Nat → (String → α) → (String → α)
  | 0, x => x
  | Nat.succ fuel, x =>
    let xNew := prStep g alpha p dw x
    if l1diff g.nodeList xNew x < (g.nodeList.length : α) * tol then xNew
    else prLoop g alpha tol p dw fuel xNew

/-- Modelled from the spec: the external personalized PageRank solver
(`networkx.pagerank`, not part of this repository's sources). An empty
graph yields an empty map; a zero-sum personalization or dangling dict and
a zero-total-out-weight node are division-by-zero degeneracies; otherwise
power iteration starts uniform and runs to tolerance or `max_iter`. -/
def nxPagerank {α : Type} [LinearOrderedField α] (g : Graph α)
    (personal dangling : Option (List (String × α)))
    (alpha : α) (maxIter : Nat) (tol : α) : Except PRErr (List (String × α)) :=
  let nodes := g.nodeList
  if nodes.length = 0 then .ok []
  else if hasZeroOutWeightNode g then .error .divByZero
  else
    match normalizeDist nodes.length personal, normalizeDist nodes.length dangling with
    | .error e, _ => .error e
    | .ok _, .error e => .error e
    | .ok p, .ok dw =>
      let x0 : String → α := fun _ => 1 / (nodes.length : α)
      let xFinal := prLoop g alpha tol p dw maxIter x0
      .ok (nodes.map (fun n => (n, xFinal n)))

/-- The call-sequencing precondition violations (`ValueError`s of the class). -/
inductive CallError where
  | mustBuildGraphFirst
  | mustCalculatePagerankFirst
deriving DecidableEq, Repr

/-- The mutable state of a `GraphRanker` instance that the claims depend
on: the built graph and the stored rankings. -/
structure GraphRanker (α : Type) where
  graph : Option (Graph α)
  rankings : Option (List (String × α))

/-- The personalization argument preparation of `calculate_pagerank`: an
absent or empty dict is no personalization; otherwise keep the entries
whose key is a graph node, an empty remainder again meaning none. -/
def filteredPersArgs {α : Type} [LinearOrderedField α] (g : Graph α)
    (personal : Option (List (String × α))) : Option (List (String × α)) :=
  match personal with
  | none => none
  | some pv =>
    if pv = [] then none
    else
      let valid := pv.filter (fun kv => kv.1 ∈ g.nodeList)
      if valid = [] then none else some valid

/-- `GraphRanker.calculate_pagerank`: requires a built graph, then runs the
solver with the filtered personalization as both restart and dangling
distribution; on a division-by-zero it retries without personalization; on
a second division-by-zero it returns the empty map. -/
def GraphRanker.calculatePagerank {α : Type} [LinearOrderedField α] (r : GraphRanker α)
    (personal : Option (List (String × α))) (alpha : α) (maxIter : Nat) (tol : α) :
    Except CallError (List (String × α)) :=
  match r.graph with
  | none => .error .mustBuildGraphFirst
  | some g =>
    let persArgs := filteredPersArgs g personal
    match nxPagerank g persArgs persArgs alpha maxIter tol with
    | .ok rk => .ok rk
    | .error .divByZero =>
      match nxPagerank g none none alpha maxIter tol with
      | .ok rk => .ok rk
      | .error .divByZero => .ok []

/-- Accumulation into the `defaultdict(float)`: add `v` to the entry at
key `k`, first creating the entry at the end if absent. -/
def addToAcc {α : Type} [LinearOrderedField α] (acc : List ((String × String) × α))
    (k : String × String) (v : α) : List ((String × String) × α) :=
  if acc.any (fun p => p.1 = k) then
    acc.map (fun p => if p.1 = k then (p.1, p.2 + v) else p)
  else acc ++ [(k, v)]

/-- The per-edge rank contributions generated by the distribution loop of
`distribute_ranking_to_definitions`, in loop order: for each node with
nonzero rank and nonzero total out-weight, each out-edge contributes
`src_rank * weight / total_weight` at key `(dst, ident)`. -/
def distContribs {α : Type} [LinearOrderedField α] (g : Graph α)
    (rk : List (String × α)) : List ((String × String) × α) :=
  g.nodeList.flatMap (fun srcNode =>
    let srcRank := (rk.lookup srcNode).getD 0
    if srcRank = 0 then []
    else
      let outEdges := g.edges.filter (fun e => e.src = srcNode)
      let totalWeight := (outEdges.map Edge.weight).sum
      if totalWeight = 0 then []
      else outEdges.map (fun e => ((e.dst, e.ident), srcRank * e.weight / totalWeight)))

/-- Fold all contributions into the accumulating map. -/
def accumulateContribs {α : Type} [LinearOrderedField α]
    (l : List ((String × String) × α)) : List ((String × String) × α) :=
  l.foldl (fun acc kv => addToAcc acc kv.1 kv.2) []

/-- Sort order of distributed definitions: by `(-rank, (file, ident))`
ascending, i.e. rank descending with the key pair as tie-break. -/
def defKeyLe {α : Type} [LinearOrderedField α]
    (a b : (String × String) × α) : Bool :=
  decide (b.2 < a.2) ||
    (decide (a.2 = b.2) &&
      (decide (a.1.1 < b.1.1) || (decide (a.1.1 = b.1.1) && decide (a.1.2 ≤ b.1.2))))

/-- The sorted distributed-definition list computed from a graph and a rank map. -/
def distSorted {α : Type} [LinearOrderedField α] (g : Graph α)
    (rk : List (String × α)) : List ((String × String) × α) :=
  (accumulateContribs (distContribs g rk)).mergeSort defKeyLe

/-- `GraphRanker.distribute_ranking_to_definitions`: requires a built
graph, and rankings either passed in or previously stored. -/
def GraphRanker.distributeRankingToDefinitions {α : Type} [LinearOrderedField α]
    (r : GraphRanker α) (_tags : List Tag) (rankings : Option (List (String × α))) :
    Except CallError (List ((String × String) × α)) :=
  match r.graph with
  | none => .error .mustBuildGraphFirst
  | some g =>
    match rankings, r.rankings with
    | none, none => .error .mustCalculatePagerankFirst
    | none, some rk => .ok (distSorted g rk)
    | some rk, _ => .ok (distSorted g rk)

/-- Sort order of top files: rank descending (stable, as Python's
`sort(key=rank, reverse=True)`). -/
def rankDescLe {α : Type} [LinearOrderedField α] (a b : String × α) : Bool :=
  decide (b.2 ≤ a.2)

/-- The filtering/sorting/truncating core of `get_top_files_by_rank`; a
limit of `None` or `0` is falsy in Python, so no truncation happens then. -/
def getTopFilesByRank {α : Type} [LinearOrderedField α] (rk : List (String × α))
    (excludeFiles : List String) (limit : Option Nat) : List (String × α) :=
  let rankedFiles := rk.filter (fun kv => kv.1 ∉ excludeFiles)
  let sortedFiles := rankedFiles.mergeSort rankDescLe
  match limit with
  | none => sortedFiles
  | some l => if l = 0 then sortedFiles else sortedFiles.take l

/-- The file universe of `rank_files_from_tags`:
`all_files = {tag.rel_fname for tag in tags}`. -/
def allFilesOfTags (tags : List Tag) : List String :=
  (tags.map Tag.rel_fname).dedup

/-- The node list of a multigraph has no duplicates. -/
theorem nodeList_nodup {α : Type} (g : Graph α) : g.nodeList.Nodup :=
  List.nodup_dedup _

/-- Membership in the node list is being an endpoint of some edge. -/
theorem mem_nodeList_iff {α : Type} (g : Graph α) (n : String) :
    n ∈ g.nodeList ↔ ∃ e ∈ g.edges, n = e.src ∨ n = e.dst := by
  simp [Graph.nodeList, List.mem_dedup, List.mem_flatMap]

/-- Sources of edges are nodes. -/
theorem src_mem_nodeList {α : Type} {g : Graph α} {e : Edge α} (he : e ∈ g.edges) :
    e.src ∈ g.nodeList :=
  (mem_nodeList_iff g e.src).mpr ⟨e, he, Or.inl rfl⟩

/-- Targets of edges are nodes. -/
theorem dst_mem_nodeList {α : Type} {g : Graph α} {e : Edge α} (he : e ∈ g.edges) :
    e.dst ∈ g.nodeList :=
  (mem_nodeList_iff g e.dst).mpr ⟨e, he, Or.inr rfl⟩

/-- Summing an indicator function over a duplicate-free list yields the
value at the single matching element. -/
theorem sum_map_ite_eq {α : Type} [AddCommMonoid α] :
    ∀ (nodes : List String), nodes.Nodup → ∀ (a : String), a ∈ nodes → ∀ (v : α),
      (nodes.map (fun n => if a = n then v else 0)).sum = v := by
  intro nodes
  induction nodes with
  | nil => intro _ a ha; cases ha
  | cons m rest ih =>
    intro hnd a ha v
    rcases List.nodup_cons.mp hnd with ⟨hm, hrest⟩
    rcases List.mem_cons.mp ha with h | h
    · subst h
      have hzero : (rest.map (fun n => if a = n then v else 0)).sum = 0 := by
        apply List.sum_eq_zero
        intro x hx
        rcases List.mem_map.mp hx with ⟨n, hn, rfl⟩
        have hne : a ≠ n := fun hc => hm (hc ▸ hn)
        simp [hne]
      simp [hzero]
    · have hne : a ≠ m := fun hc => hm (hc ▸ h)
      simp [hne, ih hrest a h v]

/-- Splitting a filtered sum off a cons. -/
theorem sum_map_filter_cons {β α : Type} [AddCommMonoid α]
    (p : β → Prop) [DecidablePred p] (f : β → α) (b : β) (t : List β) :
    ((List.filter (fun x => p x) (b :: t)).map f).sum
      = (if p b then f b else 0) + ((t.filter (fun x => p x)).map f).sum := by
  by_cases h : p b
  · simp [List.filter_cons, h]
  · simp [List.filter_cons, h]

/-- Grouping a sum by a string key that ranges over a duplicate-free list
covering all keys. -/
theorem sum_fiber {β α : Type} [AddCommMonoid α] (key : β → String) (f : β → α) :
    ∀ (l : List β) (nodes : List String), nodes.Nodup → (∀ b ∈ l, key b ∈ nodes) →
      (nodes.map (fun n => ((l.filter (fun b => key b = n)).map f).sum)).sum
        = (l.map f).sum := by
  intro l
  induction l with
  | nil => intro nodes _ _; simp
  | cons b t ih =>
    intro nodes hnd hmem
    have hb : key b ∈ nodes := hmem b (List.mem_cons_self b t)
    have ht : ∀ x ∈ t, key x ∈ nodes := fun x hx => hmem x (List.mem_cons_of_mem b hx)
    have hcongr : (nodes.map (fun n => ((List.filter (fun x => key x = n) (b :: t)).map f).sum))
        = nodes.map (fun n =>
            (if key b = n then f b else 0) + ((t.filter (fun x => key x = n)).map f).sum) := by
      apply List.map_congr_left
      intro n _
      exact sum_map_filter_cons (fun x => key x = n) f b t
    rw [hcongr, List.sum_map_add, sum_map_ite_eq nodes hnd (key b) hb (f b), ih nodes hnd ht]
    simp

/-- A filtered sum as a sum of indicators over the whole list. -/
theorem sum_map_filter_eq_sum_ite {β α : Type} [AddCommMonoid α]
    (p : β → Prop) [DecidablePred p] (f : β → α) :
    ∀ (l : List β),
      ((l.filter (fun b => p b)).map f).sum = (l.map (fun b => if p b then f b else 0)).sum := by
  intro l
  induction l with
  | nil => simp
  | cons b t ih => rw [sum_map_filter_cons p f b t, List.map_cons, List.sum_cons, ih]

/-- A key absent from an association list looks up to `none`. -/
theorem lookup_eq_none_of_notin {β α : Type} [BEq β] [LawfulBEq β] :
    ∀ (l : List (β × α)) (k : β), k ∉ l.map Prod.fst → l.lookup k = none := by
  intro l
  induction l with
  | nil => intro k _; rfl
  | cons kv t ih =>
    intro k hk
    obtain ⟨k1, v1⟩ := kv
    have h1 : ¬(k = k1) := fun hc => hk (by simp [hc])
    have h2 : k ∉ t.map Prod.fst := fun hc => hk (by simp [hc])
    have hb : (k == k1) = false := beq_eq_false_iff_ne.mpr h1
    rw [List.lookup_cons, hb]
    exact ih k h2

/-- Summing association-list lookups over a duplicate-free node list that
covers all keys yields the sum of the stored values. -/
theorem sum_map_lookup {α : Type} [AddCommMonoid α] :
    ∀ (pv : List (String × α)) (nodes : List String), nodes.Nodup →
      (pv.map Prod.fst).Nodup → (∀ kv ∈ pv, kv.1 ∈ nodes) →
      (nodes.map (fun n => (pv.lookup n).getD 0)).sum = (pv.map Prod.snd).sum := by
  intro pv
  induction pv with
  | nil => intro nodes _ _ _; simp [List.lookup]
  | cons kv rest ih =>
    intro nodes hnd hkeys hmem
    obtain ⟨k, v⟩ := kv
    have hcons : k ∉ rest.map Prod.fst ∧ (rest.map Prod.fst).Nodup := by
      rw [List.map_cons] at hkeys
      exact List.nodup_cons.mp hkeys
    have hknotin : k ∉ rest.map Prod.fst := hcons.1
    have hrestkeys : (rest.map Prod.fst).Nodup := hcons.2
    have hkmem : k ∈ nodes := hmem (k, v) (List.mem_cons_self _ _)
    have hrestmem : ∀ kv ∈ rest, kv.1 ∈ nodes :=
      fun kv hkv => hmem kv (List.mem_cons_of_mem _ hkv)
    have hpoint : ∀ n : String, (((k, v) :: rest).lookup n).getD 0
        = (if k = n then v else 0) + (rest.lookup n).getD 0 := by
      intro n
      by_cases h : n = k
      · subst h
        rw [lookup_eq_none_of_notin rest n hknotin]
        simp [List.lookup_cons]
      · have h1 : ¬(k = n) := fun hc => h hc.symm
        have hb : (n == k) = false := beq_eq_false_iff_ne.mpr h
        rw [List.lookup_cons, hb]
        simp [h1]
    calc (nodes.map (fun n => (((k, v) :: rest).lookup n).getD 0)).sum
        = (nodes.map (fun n => (if k = n then v else 0) + (rest.lookup n).getD 0)).sum := by
          exact congrArg List.sum (List.map_congr_left (fun n _ => hpoint n))
      _ = v + (rest.map Prod.snd).sum := by
          rw [List.sum_map_add, sum_map_ite_eq nodes hnd k hkmem v,
            ih nodes hnd hrestkeys hrestmem]
      _ = (((k, v) :: rest).map Prod.snd).sum := by simp

/-- On a graph without zero-total-out-weight edge sources, the normalized
out-edges of a node redistribute exactly its current mass (or nothing, for
a dangling node). -/
theorem sum_out_edges_div {α : Type} [LinearOrderedField α] (g : Graph α) (x : String → α)
    (hsafe : ¬ hasZeroOutWeightNode g) (m : String) (hm : m ∈ g.nodeList) :
    ((g.edges.filter (fun e => e.src = m)).map
        (fun e => x e.src * e.weight / outWeight g.edges e.src)).sum
      = if outWeight g.edges m = 0 then 0 else x m := by
  by_cases h0 : outWeight g.edges m = 0
  · have hemp : g.edges.filter (fun e => e.src = m) = [] := by
      by_contra hne
      exact hsafe ⟨m, hm, hne, h0⟩
    rw [hemp]
    simp [h0]
  · have hcongr : (g.edges.filter (fun e => e.src = m)).map
        (fun e => x e.src * e.weight / outWeight g.edges e.src)
        = (g.edges.filter (fun e => e.src = m)).map
            (fun e => x m / outWeight g.edges m * e.weight) := by
      apply List.map_congr_left
      intro e he
      have hsrc : e.src = m := of_decide_eq_true (List.mem_filter.mp he).2
      rw [hsrc, mul_div_right_comm]
    rw [hcongr, List.sum_map_mul_left]
    have hw : (List.map (fun e => e.weight) (g.edges.filter (fun e => e.src = m))).sum
        = outWeight g.edges m := rfl
    rw [hw, div_mul_cancel₀ (x m) h0]
    simp [h0]

/-- Total inflow over all nodes equals the mass held at non-dangling nodes. -/
theorem sum_inFlow {α : Type} [LinearOrderedField α] (g : Graph α) (x : String → α)
    (hsafe : ¬ hasZeroOutWeightNode g) :
    (g.nodeList.map (fun n => inFlow g.edges x n)).sum
      = (g.nodeList.map (fun m => if outWeight g.edges m = 0 then 0 else x m)).sum := by
  have h1 : (g.nodeList.map (fun n => inFlow g.edges x n)).sum
      = (g.edges.map (fun e => x e.src * e.weight / outWeight g.edges e.src)).sum := by
    simp only [inFlow]
    exact sum_fiber Edge.dst _ g.edges g.nodeList (nodeList_nodup g)
      (fun e he => dst_mem_nodeList he)
  have h2 : (g.edges.map (fun e => x e.src * e.weight / outWeight g.edges e.src)).sum
      = (g.nodeList.map (fun m => ((g.edges.filter (fun e => e.src = m)).map
          (fun e => x e.src * e.weight / outWeight g.edges e.src)).sum)).sum :=
    (sum_fiber Edge.src _ g.edges g.nodeList (nodeList_nodup g)
      (fun e he => src_mem_nodeList he)).symm
  rw [h1, h2]
  exact congrArg List.sum (List.map_congr_left (fun m hm => sum_out_edges_div g x hsafe m hm))

/-- Total mass held at dangling nodes, as an indicator sum. -/
theorem sum_dangling {α : Type} [LinearOrderedField α] (g : Graph α) (x : String → α) :
    ((danglingList g).map x).sum
      = (g.nodeList.map (fun m => if outWeight g.edges m = 0 then x m else 0)).sum := by
  unfold danglingList
  exact sum_map_filter_eq_sum_ite (fun n => outWeight g.edges n = 0) x g.nodeList

/-- One solver step conserves total mass 1 (given unit-mass restart and
dangling distributions). -/
theorem prStep_sum {α : Type} [LinearOrderedField α] (g : Graph α) (alpha : α)
    (p dw x : String → α) (hsafe : ¬ hasZeroOutWeightNode g)
    (hp : (g.nodeList.map p).sum = 1) (hdw : (g.nodeList.map dw).sum = 1)
    (hx : (g.nodeList.map x).sum = 1) :
    (g.nodeList.map (prStep g alpha p dw x)).sum = 1 := by
  have hstep : g.nodeList.map (prStep g alpha p dw x)
      = g.nodeList.map (fun n =>
          alpha * inFlow g.edges x n
            + (alpha * ((danglingList g).map x).sum) * dw n
            + (1 - alpha) * p n) := rfl
  have hAB : (g.nodeList.map (fun m => if outWeight g.edges m = 0 then 0 else x m)).sum
      + (g.nodeList.map (fun m => if outWeight g.edges m = 0 then x m else 0)).sum = 1 := by
    rw [← List.sum_map_add]
    have hpt : g.nodeList.map (fun m => (if outWeight g.edges m = 0 then 0 else x m)
        + (if outWeight g.edges m = 0 then x m else 0)) = g.nodeList.map x := by
      apply List.map_congr_left
      intro m _
      by_cases h : outWeight g.edges m = 0 <;> simp [h]
    rw [hpt, hx]
  rw [hstep, List.sum_map_add, List.sum_map_add, List.sum_map_mul_left,
    List.sum_map_mul_left, List.sum_map_mul_left, hp, hdw, sum_inFlow g x hsafe,
    sum_dangling g x]
  linear_combination alpha * hAB

/-- The whole solver iteration conserves total mass 1. -/
theorem prLoop_sum {α : Type} [LinearOrderedField α] (g : Graph α) (alpha tol : α)
    (p dw : String → α) (hsafe : ¬ hasZeroOutWeightNode g)
    (hp : (g.nodeList.map p).sum = 1) (hdw : (g.nodeList.map dw).sum = 1) :
    ∀ (fuel : Nat) (x : String → α), (g.nodeList.map x).sum = 1 →
      (g.nodeList.map (prLoop g alpha tol p dw fuel x)).sum = 1 := by
  intro fuel
  induction fuel with
  | zero => intro x hx; simpa [prLoop] using hx
  | succ n ih =>
    intro x hx
    simp only [prLoop]
    split
    · exact prStep_sum g alpha p dw x hsafe hp hdw hx
    · exact ih _ (prStep_sum g alpha p dw x hsafe hp hdw hx)

/-- A normalized distribution (uniform or a normalized dict covering a
subset of the nodes) sums to exactly 1 over the node list. -/
theorem normalizeDist_ok_sum {α : Type} [LinearOrderedField α] {nodes : List String}
    (hnd : nodes.Nodup) (hN : nodes.length ≠ 0)
    {d : Option (List (String × α))}
    (hwf : ∀ pv, d = some pv → (pv.map Prod.fst).Nodup ∧ ∀ kv ∈ pv, kv.1 ∈ nodes)
    {p : String → α} (hok : normalizeDist nodes.length d = .ok p) :
    (nodes.map p).sum = 1 := by
  cases d with
  | none =>
    simp only [normalizeDist] at hok
    cases hok
    rw [List.map_const', List.sum_replicate, nsmul_eq_mul, mul_one_div]
    exact div_self (Nat.cast_ne_zero.mpr hN)
  | some pv =>
    simp only [normalizeDist] at hok
    by_cases hs : (pv.map Prod.snd).sum = 0
    · rw [if_pos hs] at hok
      exact Except.noConfusion hok
    · rw [if_neg hs] at hok
      cases hok
      obtain ⟨hkeys, hmem⟩ := hwf pv rfl
      have hlk := sum_map_lookup pv nodes hnd hkeys hmem
      have hconv : nodes.map (fun n => (pv.lookup n).getD 0 / (pv.map Prod.snd).sum)
          = nodes.map (fun n => (pv.lookup n).getD 0 * ((pv.map Prod.snd).sum)⁻¹) := by
        apply List.map_congr_left
        intro n _
        rw [div_eq_mul_inv]
      rw [hconv, List.sum_map_mul_right, hlk, mul_inv_cancel₀ hs]

/-- Well-formedness of an optional personalization dict relative to a
graph: distinct keys, all of them nodes. -/
def PersWF {α : Type} [LinearOrderedField α] (g : Graph α)
    (d : Option (List (String × α))) : Prop :=
  ∀ pv, d = some pv → (pv.map Prod.fst).Nodup ∧ ∀ kv ∈ pv, kv.1 ∈ g.nodeList

/-- Inversion of a successful solver run: the result is either empty (empty
graph) or the node-indexed iterate of a safe, normalized run. -/
theorem nxPagerank_ok_cases {α : Type} [LinearOrderedField α] {g : Graph α}
    {personal dangling : Option (List (String × α))} {alpha : α} {maxIter : Nat} {tol : α}
    {r : List (String × α)}
    (hok : nxPagerank g personal dangling alpha maxIter tol = .ok r) :
    r = [] ∨ (¬ hasZeroOutWeightNode g ∧ g.nodeList.length ≠ 0 ∧
      ∃ p dw, normalizeDist g.nodeList.length personal = .ok p ∧
        normalizeDist g.nodeList.length dangling = .ok dw ∧
        r = g.nodeList.map (fun n =>
          (n, prLoop g alpha tol p dw maxIter (fun _ => 1 / (g.nodeList.length : α)) n))) := by
  simp only [nxPagerank] at hok
  by_cases h0 : g.nodeList.length = 0
  · rw [if_pos h0] at hok
    cases hok
    exact Or.inl rfl
  · rw [if_neg h0] at hok
    by_cases hz : hasZeroOutWeightNode g
    · rw [if_pos hz] at hok
      exact Except.noConfusion hok
    · rw [if_neg hz] at hok
      cases hper : normalizeDist g.nodeList.length personal with
      | error e =>
        simp only [hper] at hok
        exact Except.noConfusion hok
      | ok p =>
        cases hdan : normalizeDist g.nodeList.length dangling with
        | error e =>
          simp only [hper, hdan] at hok
          exact Except.noConfusion hok
        | ok dw =>
          simp only [hper, hdan] at hok
          cases hok
          exact Or.inr ⟨hz, h0, p, dw, rfl, rfl, rfl⟩

/-- Mass conservation of a successful, non-empty solver run with
well-formed personalization and dangling dicts: the ranks sum to exactly 1. -/
theorem nxPagerank_ok_sum {α : Type} [LinearOrderedField α] {g : Graph α}
    {personal dangling : Option (List (String × α))} {alpha : α} {maxIter : Nat} {tol : α}
    {r : List (String × α)}
    (hper : PersWF g personal) (hdan : PersWF g dangling)
    (hok : nxPagerank g personal dangling alpha maxIter tol = .ok r) (hne : r ≠ []) :
    (r.map Prod.snd).sum = 1 := by
  rcases nxPagerank_ok_cases hok with h | ⟨hz, h0, p, dw, hp, hdw, hr⟩
  · exact absurd h hne
  · subst hr
    have hxsum : (g.nodeList.map (fun _ => 1 / (g.nodeList.length : α))).sum = 1 := by
      rw [List.map_const', List.sum_replicate, nsmul_eq_mul, mul_one_div]
      exact div_self (Nat.cast_ne_zero.mpr h0)
    have hpsum := normalizeDist_ok_sum (nodeList_nodup g) h0 hper hp
    have hdwsum := normalizeDist_ok_sum (nodeList_nodup g) h0 hdan hdw
    have hmain := prLoop_sum g alpha tol p dw hz hpsum hdwsum maxIter _ hxsum
    simpa [List.map_map, Function.comp] using hmain

/-- Keys of a successful solver result are graph nodes. -/
theorem nxPagerank_ok_keys {α : Type} [LinearOrderedField α] {g : Graph α}
    {personal dangling : Option (List (String × α))} {alpha : α} {maxIter : Nat} {tol : α}
    {r : List (String × α)}
    (hok : nxPagerank g personal dangling alpha maxIter tol = .ok r) :
    ∀ kv ∈ r, kv.1 ∈ g.nodeList := by
  rcases nxPagerank_ok_cases hok with h | ⟨_, _, p, dw, _, _, hr⟩
  · subst h
    intro kv hkv
    cases hkv
  · subst hr
    intro kv hkv
    rcases List.mem_map.mp hkv with ⟨n, hn, rfl⟩
    exact hn

/-- A map whose keys are all different from `f` looks `f` up to `none`. -/
theorem lookup_eq_none_of_keys_mem {α : Type} {r : List (String × α)}
    {nodes : List String} (hkeys : ∀ kv ∈ r, kv.1 ∈ nodes)
    {f : String} (hf : f ∉ nodes) : r.lookup f = none := by
  apply lookup_eq_none_of_notin
  intro hmem
  rcases List.mem_map.mp hmem with ⟨kv, hkv, hfst⟩
  exact hf (hfst ▸ hkeys kv hkv)

/-- Membership in `defNames`: some definition tag carries the name. -/
theorem mem_defNames {tags : List Tag} {i : String} :
    i ∈ defNames tags ↔ ∃ t ∈ tags, t.kind = "def" ∧ t.name = i := by
  simp [defNames, List.mem_dedup, List.mem_map, List.mem_filter, and_assoc]

/-- Membership in `defFiles`: some definition tag for the name lives in the file. -/
theorem mem_defFiles {tags : List Tag} {i d : String} :
    d ∈ defFiles tags i ↔ ∃ t ∈ tags, t.kind = "def" ∧ t.name = i ∧ t.rel_fname = d := by
  simp [defFiles, List.mem_dedup, List.mem_map, List.mem_filter, and_assoc]

/-- Membership in the reference occurrences of a name. -/
theorem mem_refOccurrences {tags : List Tag} {i f : String} :
    f ∈ refOccurrences tags i ↔ ∃ t ∈ tags, t.kind = "ref" ∧ t.name = i ∧ t.rel_fname = f := by
  simp [refOccurrences, List.mem_map, List.mem_filter, and_assoc]

/-- A defined name has a nonempty defining-file set. -/
theorem defFiles_ne_nil {tags : List Tag} {i : String} (h : i ∈ defNames tags) :
    defFiles tags i ≠ [] := by
  rcases mem_defNames.mp h with ⟨t, ht, hk, hn⟩
  exact List.ne_nil_of_mem (mem_defFiles.mpr ⟨t, ht, hk, hn, rfl⟩)

/-- Inversion for edges of the built dependency graph: every edge is either
a weight-0.1 self-edge of an unreferenced definition, or a
referencer-to-definer edge of a connected identifier carrying the full
multiplier-times-sqrt weight. -/
theorem mem_build_edges {α : Type} [LinearOrderedField α] {sqrtFn : Nat → α}
    {tags : List Tag} {chatFiles mentionedIdents : List String} {e : Edge α}
    (he : e ∈ (buildDependencyGraph α sqrtFn tags chatFiles mentionedIdents).edges) :
    (∃ i d, refOccurrences tags i = [] ∧ d ∈ defFiles tags i ∧
        e = Edge.mk d d ((1 : α) / 10) i)
    ∨ (∃ i r d, i ∈ defNames tags ∧ refOccurrences tags i ≠ [] ∧
        r ∈ refFilesDedup tags i ∧ d ∈ defFiles tags i ∧
        e = Edge.mk r d (calculateIdentifierMultiplier i mentionedIdents
            * (if 5 < (defFiles tags i).length then (1 : α) / 10 else 1)
            * (if r ∈ chatFiles then (50 : α) else 1)
            * sqrtFn (numRefs tags i r)) i) := by
  simp only [buildDependencyGraph, List.mem_append, List.mem_flatMap, List.mem_map,
    List.mem_filter, decide_eq_true_eq] at he
  rcases he with ⟨i, ⟨hidef, hinoref⟩, d, hd, hed⟩ | ⟨i, ⟨hidef, hiref⟩, r, hr, d, hd, hed⟩
  · exact Or.inl ⟨i, d, hinoref, hd, hed.symm⟩
  · exact Or.inr ⟨i, r, d, hidef, hiref, hr, hd, hed.symm⟩

/-- Existence of the connected edge for each (identifier, referencer,
definer) triple, with its full weight. -/
theorem build_edge_exists {α : Type} [LinearOrderedField α] (sqrtFn : Nat → α)
    (tags : List Tag) (chatFiles mentionedIdents : List String) {ident r d : String}
    (hr : r ∈ refFilesDedup tags ident) (hd : d ∈ defFiles tags ident) :
    Edge.mk r d (calculateIdentifierMultiplier ident mentionedIdents
        * (if 5 < (defFiles tags ident).length then (1 : α) / 10 else 1)
        * (if r ∈ chatFiles then (50 : α) else 1)
        * sqrtFn (numRefs tags ident r)) ident
      ∈ (buildDependencyGraph α sqrtFn tags chatFiles mentionedIdents).edges := by
  have hdn : ident ∈ defNames tags := by
    rcases mem_defFiles.mp hd with ⟨t, ht, hk, hn, _⟩
    exact mem_defNames.mpr ⟨t, ht, hk, hn⟩
  have hnr : refOccurrences tags ident ≠ [] :=
    List.ne_nil_of_mem (List.mem_dedup.mp hr)
  simp only [buildDependencyGraph, List.mem_append, List.mem_flatMap, List.mem_map,
    List.mem_filter, decide_eq_true_eq]
  exact Or.inr ⟨ident, ⟨hdn, hnr⟩, r, hr, d, hd, rfl⟩

/-- Inversion for a successful `calculate_pagerank`: the result is the
empty tier-3 map or a successful tier-1 or tier-2 solver run. -/
theorem calculatePagerank_ok_inv {α : Type} [LinearOrderedField α] {g : Graph α}
    {rOpt personal : Option (List (String × α))} {alpha tol : α} {maxIter : Nat}
    {rk : List (String × α)}
    (hok : (GraphRanker.mk (some g) rOpt).calculatePagerank personal alpha maxIter tol
      = .ok rk) :
    rk = []
    ∨ nxPagerank g (filteredPersArgs g personal) (filteredPersArgs g personal)
        alpha maxIter tol = .ok rk
    ∨ nxPagerank g none none alpha maxIter tol = .ok rk := by
  have hcalc : (GraphRanker.mk (some g) rOpt).calculatePagerank personal alpha maxIter tol
      = match nxPagerank g (filteredPersArgs g personal) (filteredPersArgs g personal)
          alpha maxIter tol with
        | .ok rk1 => .ok rk1
        | .error .divByZero =>
          match nxPagerank g none none alpha maxIter tol with
          | .ok rk1 => .ok rk1
          | .error .divByZero => .ok [] := rfl
  rw [hcalc] at hok
  cases h1 : nxPagerank g (filteredPersArgs g personal) (filteredPersArgs g personal)
      alpha maxIter tol with
  | ok r1 =>
    simp only [h1] at hok
    cases hok
    exact Or.inr (Or.inl rfl)
  | error e =>
    cases e
    simp only [h1] at hok
    cases h2 : nxPagerank g none none alpha maxIter tol with
    | ok r2 =>
      simp only [h2] at hok
      cases hok
      exact Or.inr (Or.inr rfl)
    | error e2 =>
      cases e2
      simp only [h2] at hok
      cases hok
      exact Or.inl rfl

/-- The filtered personalization argument is well-formed whenever the
incoming dict has distinct keys. -/
theorem filteredPersArgs_wf {α : Type} [LinearOrderedField α] {g : Graph α}
    {personal : Option (List (String × α))}
    (h : ∀ pv, personal = some pv → (pv.map Prod.fst).Nodup) :
    PersWF g (filteredPersArgs g personal) := by
  intro pv hpv
  cases personal with
  | none => exact Option.noConfusion hpv
  | some pv0 =>
    simp only [filteredPersArgs] at hpv
    by_cases h0 : pv0 = []
    · rw [if_pos h0] at hpv
      exact Option.noConfusion hpv
    · rw [if_neg h0] at hpv
      by_cases h1 : pv0.filter (fun kv => kv.1 ∈ g.nodeList) = []
      · rw [if_pos h1] at hpv
        exact Option.noConfusion hpv
      · rw [if_neg h1] at hpv
        cases hpv
        constructor
        · exact List.Nodup.sublist (List.Sublist.map Prod.fst (List.filter_sublist pv0))
            (h pv0 rfl)
        · intro kv hkv
          exact of_decide_eq_true (List.mem_filter.mp hkv).2


/-- Association-list lookup on a cons, in if-then-else form. -/
theorem lookup_cons_eq {β α : Type} [BEq β] [LawfulBEq β] [DecidableEq β]
    (q : β × α) (t : List (β × α)) (j : β) :
    ((q :: t).lookup j) = if j = q.1 then some q.2 else t.lookup j := by
  obtain ⟨k, v⟩ := q
  by_cases h : j = k
  · simp [List.lookup_cons, h]
  · simp [List.lookup_cons, beq_eq_false_iff_ne.mpr h, h]

/-- Bumping every entry at key `k` adds `v` to the looked-up value exactly
when the key is `k` and present. -/
theorem lookupD_map_bump {α : Type} [LinearOrderedField α] (k : String × String) (v : α) :
    ∀ (acc : List ((String × String) × α)) (j : String × String),
      (((acc.map (fun p => if p.1 = k then (p.1, p.2 + v) else p)).lookup j).getD 0)
        = (acc.lookup j).getD 0
          + (if j = k ∧ k ∈ acc.map Prod.fst then v else 0) := by
  intro acc
  induction acc with
  | nil => intro j; simp
  | cons p t ih =>
    intro j
    have hq1 : (if p.1 = k then (p.1, p.2 + v) else p).1 = p.1 := by
      split <;> rfl
    have hq2 : (if p.1 = k then (p.1, p.2 + v) else p).2
        = if p.1 = k then p.2 + v else p.2 := by
      split <;> rfl
    rw [List.map_cons, lookup_cons_eq, lookup_cons_eq, hq1, hq2]
    by_cases hj : j = p.1
    · rw [if_pos hj, if_pos hj]
      by_cases hpk : p.1 = k
      · have hjk : j = k := hj.trans hpk
        have hkm : k ∈ (p :: t).map Prod.fst := by
          simp [hpk.symm]
        rw [if_pos hpk, if_pos ⟨hjk, hkm⟩]
        simp
      · have hjk : ¬(j = k ∧ k ∈ (p :: t).map Prod.fst) := fun hc => hpk (hj ▸ hc.1)
        rw [if_neg hpk, if_neg hjk]
        simp
    · rw [if_neg hj, if_neg hj, ih j]
      by_cases hjk : j = k
      · have hkp : ¬(k = p.1) := fun hc => hj (hjk.trans hc)
        have hmem : (k ∈ t.map Prod.fst) ↔ (k ∈ (p :: t).map Prod.fst) := by
          simp [hkp]
        by_cases hin : k ∈ t.map Prod.fst
        · rw [if_pos ⟨hjk, hin⟩, if_pos ⟨hjk, hmem.mp hin⟩]
        · rw [if_neg (fun hc => hin hc.2), if_neg (fun hc => hin (hmem.mpr hc.2))]
      · rw [if_neg (fun hc => hjk hc.1), if_neg (fun hc => hjk hc.1)]

/-- One `defaultdict` accumulation adds `v` at key `k` and nothing elsewhere. -/
theorem lookupD_addToAcc {α : Type} [LinearOrderedField α]
    (acc : List ((String × String) × α)) (k : String × String) (v : α)
    (j : String × String) :
    ((addToAcc acc k v).lookup j).getD 0
      = (acc.lookup j).getD 0 + (if j = k then v else 0) := by
  unfold addToAcc
  by_cases hany : acc.any (fun p => decide (p.1 = k)) = true
  · rw [if_pos hany, lookupD_map_bump]
    have hkm : k ∈ acc.map Prod.fst := by
      rcases List.any_eq_true.mp hany with ⟨p, hp, hdec⟩
      exact List.mem_map.mpr ⟨p, hp, of_decide_eq_true hdec⟩
    by_cases hjk : j = k
    · rw [if_pos ⟨hjk, hkm⟩, if_pos hjk]
    · rw [if_neg (fun hc => hjk hc.1), if_neg hjk]
  · rw [if_neg hany, List.lookup_append]
    have hknm : k ∉ acc.map Prod.fst := by
      intro hc
      rcases List.mem_map.mp hc with ⟨p, hp, hfst⟩
      exact hany (List.any_eq_true.mpr ⟨p, hp, decide_eq_true hfst⟩)
    by_cases hjk : j = k
    · subst hjk
      rw [lookup_eq_none_of_notin acc j hknm, lookup_cons_eq]
      simp
    · have hone : ([(k, v)] : List ((String × String) × α)).lookup j = none := by
        rw [lookup_cons_eq]
        simp [hjk, List.lookup]
      rw [hone]
      cases hl : acc.lookup j <;> simp [Option.or, hjk]

/-- Folding `defaultdict` accumulations: each key ends at its starting
value plus the sum of all contributions carrying that key. -/
theorem lookupD_foldl_addToAcc {α : Type} [LinearOrderedField α] :
    ∀ (l : List ((String × String) × α)) (acc : List ((String × String) × α))
      (j : String × String),
      ((l.foldl (fun a kv => addToAcc a kv.1 kv.2) acc).lookup j).getD 0
        = (acc.lookup j).getD 0 + ((l.filter (fun c => c.1 = j)).map Prod.snd).sum := by
  intro l
  induction l with
  | nil => intro acc j; simp
  | cons c t ih =>
    intro acc j
    rw [List.foldl_cons, ih (addToAcc acc c.1 c.2) j, lookupD_addToAcc,
      sum_map_filter_cons (fun x => x.1 = j) Prod.snd c t]
    by_cases h : c.1 = j
    · rw [if_pos h, if_pos h.symm]
      ring
    · rw [if_neg h, if_neg (fun hc => h hc.symm)]
      ring

/-- Claim C4: the identifier importance multiplier equals 1.0 times a ×10
mentioned boost, times a ×10 boost for well-formed names of length at
least 8, times a ×0.1 penalty for a leading underscore; the two ×10 boosts
stack to ×100 for a non-private name. -/
theorem C4_identifier_multiplier_formula {α : Type} [LinearOrderedField α]
    (ident : String) (mentionedIdents : List String) :
    (calculateIdentifierMultiplier ident mentionedIdents : α)
      = 1 * (if ident ∈ mentionedIdents then (10 : α) else 1)
        * (if ((ident.toList.contains '_' && ident.toList.any Char.isAlpha)
            || (ident.toList.contains '-' && ident.toList.any Char.isAlpha)
            || (ident.toList.any Char.isUpper && ident.toList.any Char.isLower))
            ∧ 8 ≤ ident.length then (10 : α) else 1)
        * (if ident.toList.head? = some '_' then (1 : α) / 10 else 1)
    ∧ (ident ∈ mentionedIdents →
        (((ident.toList.contains '_' && ident.toList.any Char.isAlpha)
            || (ident.toList.contains '-' && ident.toList.any Char.isAlpha)
            || (ident.toList.any Char.isUpper && ident.toList.any Char.isLower)) = true) →
        8 ≤ ident.length → ¬(ident.toList.head? = some '_') →
        (calculateIdentifierMultiplier ident mentionedIdents : α) = 100) := by
  constructor
  · simp only [calculateIdentifierMultiplier]
    split_ifs <;> ring
  · intro h1 h2 h3 h4
    simp only [calculateIdentifierMultiplier]
    rw [if_neg h4, if_pos ⟨h2, h3⟩, if_pos h1]
    norm_num

/-- Witness for C4 at a concrete mentioned, well-formed, non-private name. -/
theorem C4_witness :
    (calculateIdentifierMultiplier "process_data" ["process_data"] : ℚ) = 100 :=
  (C4_identifier_multiplier_formula "process_data" ["process_data"]).2
    (by decide) (by decide) (by decide) (by decide)

/-- Claim C8: rank calculation without a built graph, and rank distribution
without a built graph or without available rankings, fail with the
call-sequencing errors rather than returning a result. -/
theorem C8_call_sequence_errors {α : Type} [LinearOrderedField α]
    (rOpt rkArg : Option (List (String × α))) (personal : Option (List (String × α)))
    (alpha tol : α) (maxIter : Nat) (tags : List Tag) (g : Graph α) :
    (GraphRanker.mk (α := α) none rOpt).calculatePagerank personal alpha maxIter tol
        = .error .mustBuildGraphFirst
    ∧ (GraphRanker.mk (α := α) none rOpt).distributeRankingToDefinitions tags rkArg
        = .error .mustBuildGraphFirst
    ∧ (GraphRanker.mk (some g) none).distributeRankingToDefinitions tags none
        = .error .mustCalculatePagerankFirst :=
  ⟨rfl, rfl, rfl⟩

/-- A single self-loop of nonzero weight is a fixed point of the solver:
unpersonalized PageRank on it yields rank exactly 1 for the node. -/
theorem nxPagerank_single_self_loop {α : Type} [LinearOrderedField α]
    (nm i : String) (w : α) (hw : w ≠ 0) (alpha : α) (maxIter : Nat) (tol : α)
    (htol : 0 < tol) :
    nxPagerank (Graph.mk [Edge.mk nm nm w i]) none none alpha maxIter tol
      = .ok [(nm, 1)] := by
  set g : Graph α := Graph.mk [Edge.mk nm nm w i] with hgdef
  have hnodes : g.nodeList = [nm] := by
    show ((([Edge.mk nm nm w i] : List (Edge α)).flatMap (fun e => [e.src, e.dst]))).dedup
      = [nm]
    simp only [List.flatMap_cons, List.flatMap_nil, List.append_nil]
    rw [List.dedup_cons_of_mem (by simp), List.dedup_cons_of_not_mem (by simp),
      List.dedup_nil]
  have hfsrc : g.edges.filter (fun e => e.src = nm) = g.edges := by
    simp [hgdef]
  have hfdst : g.edges.filter (fun e => e.dst = nm) = g.edges := by
    simp [hgdef]
  have hout : outWeight g.edges nm = w := by
    rw [outWeight, hfsrc, hgdef]
    simp
  have hsafe : ¬ hasZeroOutWeightNode g := by
    unfold hasZeroOutWeightNode
    push_neg
    intro n hn _
    rw [hnodes] at hn
    have hnm : n = nm := by simpa using hn
    rw [hnm, hout]
    exact hw
  have hdang : danglingList g = [] := by
    rw [danglingList, hnodes]
    have : ¬(outWeight g.edges nm = 0) := by rw [hout]; exact hw
    simp [this]
  have h0len : ¬(g.nodeList.length = 0) := by rw [hnodes]; simp
  simp only [nxPagerank]
  rw [if_neg h0len, if_neg hsafe]
  simp only [normalizeDist, hnodes, List.length_cons, List.length_nil, Nat.cast_one,
    List.map_cons, List.map_nil]
  have hconst : (fun _ : String => (1 : α) / ((0 : ℕ) + 1 : ℕ)) = fun _ : String => 1 := by
    funext x
    norm_num
  have hloopval : ∀ fuel : Nat,
      prLoop g alpha tol (fun _ => 1) (fun _ => 1) fuel (fun _ => 1) nm = 1 := by
    have hfix : prStep g alpha (fun _ => (1 : α)) (fun _ => 1) (fun _ => 1)
        = fun n => alpha * inFlow g.edges (fun _ => 1) n + (alpha * 0) * 1 + (1 - alpha) * 1 := by
      funext n
      rw [prStep, hdang]
      simp
    have hstepnm : prStep g alpha (fun _ => (1 : α)) (fun _ => 1) (fun _ => 1) nm = 1 := by
      rw [hfix]
      have hin : inFlow g.edges (fun _ => (1 : α)) nm = 1 := by
        rw [inFlow, hfdst, hgdef]
        simp only [List.map_cons, List.map_nil, List.sum_cons, List.sum_nil]
        show (1 : α) * w / outWeight g.edges (Edge.mk nm nm w i).src + 0 = 1
        rw [show (Edge.mk nm nm w i).src = nm from rfl, hout, one_mul, div_self hw]
        ring
      simp only [hin]
      ring
    intro fuel
    cases fuel with
    | zero => rfl
    | succ k =>
      simp only [prLoop]
      have hl1 : l1diff g.nodeList
          (prStep g alpha (fun _ => (1 : α)) (fun _ => 1) (fun _ => 1)) (fun _ => 1)
          < (g.nodeList.length : α) * tol := by
        rw [l1diff, hnodes]
        simp only [List.map_cons, List.map_nil, List.sum_cons, List.sum_nil,
          List.length_cons, List.length_nil, Nat.cast_one, one_mul]
        rw [hstepnm]
        simpa using htol
      rw [if_pos hl1]
      exact hstepnm
  rw [hconst]
  have := hloopval maxIter
  simp only [this]

/-- A personalized solver run fails by division by zero exactly when the
personalization dict sums to zero (on a graph with nodes and safe
out-weights). -/
theorem nxPagerank_zero_sum_pers {α : Type} [LinearOrderedField α] (g : Graph α)
    (pv : List (String × α)) (d : Option (List (String × α)))
    (alpha tol : α) (maxIter : Nat)
    (hlen : ¬(g.nodeList.length = 0)) (hsafe : ¬ hasZeroOutWeightNode g)
    (hsum : (pv.map Prod.snd).sum = 0) :
    nxPagerank g (some pv) d alpha maxIter tol = .error .divByZero := by
  simp only [nxPagerank]
  rw [if_neg hlen, if_neg hsafe]
  simp only [normalizeDist, if_pos hsum]

/-- Claim C7: a single definition tag with no references yields exactly the
weight-0.1 self-edge, and unpersonalized PageRank on that graph returns
exactly rank 1.0 for the file, with no division by zero. -/
theorem C7_single_isolated_definition (sqrtFn : Nat → ℚ) :
    (buildDependencyGraph ℚ sqrtFn [Tag.mk "a.py" "/a.py" 1 "foo" "def"] [] []).edges
        = [Edge.mk "a.py" "a.py" ((1 : ℚ) / 10) "foo"]
    ∧ (GraphRanker.mk
          (some (buildDependencyGraph ℚ sqrtFn [Tag.mk "a.py" "/a.py" 1 "foo" "def"] [] []))
          none).calculatePagerank none 0.85 100 1e-6 = .ok [("a.py", 1)] := by
  have hg : buildDependencyGraph ℚ sqrtFn [Tag.mk "a.py" "/a.py" 1 "foo" "def"] [] []
      = Graph.mk [Edge.mk "a.py" "a.py" ((1 : ℚ) / 10) "foo"] := rfl
  refine ⟨by rw [hg], ?_⟩
  rw [hg]
  have htier1 := nxPagerank_single_self_loop (α := ℚ) "a.py" "foo" ((1 : ℚ) / 10)
    (by norm_num) 0.85 100 1e-6 (by norm_num)
  simp only [GraphRanker.calculatePagerank, filteredPersArgs, htier1]

/-- Claim C9 counterexample: with the explicit limit 0 the selector returns
all entries (a falsy limit in Python skips truncation), not the empty list. -/
theorem C9_counterexample_limit_zero :
    getTopFilesByRank (α := ℚ) [("a.py", 1)] [] (some 0) = [("a.py", 1)]
    ∧ getTopFilesByRank (α := ℚ) [("a.py", 1)] [] (some 0) ≠ [] := by
  have h : getTopFilesByRank (α := ℚ) [("a.py", 1)] [] (some 0) = [("a.py", 1)] := by
    simp [getTopFilesByRank, List.mergeSort_singleton]
  refine ⟨h, ?_⟩
  rw [h]
  exact fun hc => List.noConfusion hc

/-- Claim C9 (amended): for a nonzero limit the selector returns the
non-excluded pairs sorted descending by rank truncated to at most `n`; for
limit 0 it returns the whole sorted list untruncated. -/
theorem C9_top_files_selection {α : Type} [LinearOrderedField α] (rk : List (String × α))
    (excludeFiles : List String) (n : Nat) (hn : n ≠ 0) :
    ∃ s : List (String × α),
      s.Perm (rk.filter (fun kv => kv.1 ∉ excludeFiles))
      ∧ List.Pairwise (fun a b => b.2 ≤ a.2) s
      ∧ getTopFilesByRank rk excludeFiles (some n) = s.take n
      ∧ (getTopFilesByRank rk excludeFiles (some n)).length ≤ n
      ∧ getTopFilesByRank rk excludeFiles (some 0) = s := by
  have htrans : ∀ a b c : String × α, rankDescLe a b = true → rankDescLe b c = true →
      rankDescLe a c = true := by
    intro a b c hab hbc
    simp only [rankDescLe, decide_eq_true_eq] at hab hbc ⊢
    exact le_trans hbc hab
  have htotal : ∀ a b : String × α, (rankDescLe a b || rankDescLe b a) = true := by
    intro a b
    simp only [rankDescLe, Bool.or_eq_true, decide_eq_true_eq]
    exact le_total b.2 a.2
  refine ⟨(rk.filter (fun kv => kv.1 ∉ excludeFiles)).mergeSort rankDescLe,
    List.mergeSort_perm _ _, ?_, ?_, ?_, ?_⟩
  · have hs := List.sorted_mergeSort htrans htotal (rk.filter (fun kv => kv.1 ∉ excludeFiles))
    exact hs.imp (fun h => of_decide_eq_true h)
  · simp only [getTopFilesByRank]
    rw [if_neg hn]
  · simp only [getTopFilesByRank]
    rw [if_neg hn]
    exact List.length_take_le n _
  · simp [getTopFilesByRank]

/-- Witness for C9 (amended) at a concrete two-entry rank map with limit 1. -/
theorem C9_witness :
    ∃ s : List (String × ℚ),
      s.Perm ([("a.py", (2 : ℚ)), ("b.py", 3)].filter
        (fun kv => kv.1 ∉ ([] : List String)))
      ∧ List.Pairwise (fun a b => b.2 ≤ a.2) s
      ∧ getTopFilesByRank [("a.py", (2 : ℚ)), ("b.py", 3)] [] (some 1) = s.take 1
      ∧ (getTopFilesByRank [("a.py", (2 : ℚ)), ("b.py", 3)] [] (some 1)).length ≤ 1
      ∧ getTopFilesByRank [("a.py", (2 : ℚ)), ("b.py", 3)] [] (some 0) = s :=
  C9_top_files_selection [("a.py", 2), ("b.py", 3)] [] 1 (by decide)

/-- Claim C5: rank distribution assigns each out-edge of a positive-rank
node the contribution `rank * weight / total_out_weight`, accumulates
contributions by summation per `(dst, ident)` key, and the contributions
of one node's out-edges sum back to exactly its rank. -/
theorem C5_rank_distribution_conservation {α : Type} [LinearOrderedField α]
    (g : Graph α) (rk : List (String × α)) (n : String)
    (hrank : 0 < (rk.lookup n).getD 0)
    (hw : 0 < ((g.edges.filter (fun e => e.src = n)).map Edge.weight).sum) :
    ((((g.edges.filter (fun e => e.src = n)).map (fun e =>
        (rk.lookup n).getD 0 * e.weight
          / ((g.edges.filter (fun e => e.src = n)).map Edge.weight).sum)).sum)
      = (rk.lookup n).getD 0)
    ∧ (∀ k, ((accumulateContribs (distContribs g rk)).lookup k).getD 0
          = (((distContribs g rk).filter (fun c => c.1 = k)).map Prod.snd).sum)
    ∧ (distSorted g rk).Perm (accumulateContribs (distContribs g rk)) := by
  refine ⟨?_, ?_, ?_⟩
  · have hcongr : (g.edges.filter (fun e => e.src = n)).map (fun e =>
        (rk.lookup n).getD 0 * e.weight
          / ((g.edges.filter (fun e => e.src = n)).map Edge.weight).sum)
        = (g.edges.filter (fun e => e.src = n)).map (fun e =>
            (rk.lookup n).getD 0
              / ((g.edges.filter (fun e => e.src = n)).map Edge.weight).sum * e.weight) := by
      apply List.map_congr_left
      intro e _
      rw [mul_div_right_comm]
    rw [hcongr, List.sum_map_mul_left]
    exact div_mul_cancel₀ _ (ne_of_gt hw)
  · intro k
    have hfold := lookupD_foldl_addToAcc (distContribs g rk) [] k
    simpa [accumulateContribs] using hfold
  · exact List.mergeSort_perm _ _

/-- Witness for C5 at a concrete one-edge graph with rank 1 on the source. -/
theorem C5_witness :
    (let g : Graph ℚ := Graph.mk [Edge.mk "x" "a" 1 "s"]
     let rk : List (String × ℚ) := [("x", 1)]
     ((g.edges.filter (fun e => e.src = "x")).map (fun e =>
         (rk.lookup "x").getD 0 * e.weight
           / ((g.edges.filter (fun e => e.src = "x")).map Edge.weight).sum)).sum
       = (rk.lookup "x").getD 0) :=
  (C5_rank_distribution_conservation (Graph.mk [Edge.mk "x" "a" (1 : ℚ) "s"])
    [("x", 1)] "x" (by decide) (by norm_num [List.filter_cons])).1

/-- A key outside the file list is absent from the sparse personalization map. -/
theorem lookup_filterMap_if_notin {α : Type} (P : String → Prop) [DecidablePred P]
    (c : String → α) :
    ∀ (l : List String) (f : String), f ∉ l →
      (l.filterMap (fun x => if P x then some (x, c x) else none)).lookup f = none := by
  intro l
  induction l with
  | nil => intro f _; rfl
  | cons x t ih =>
    intro f hf
    have hfx : ¬(f = x) := fun hc => hf (hc ▸ List.mem_cons_self x t)
    have hft : f ∉ t := fun hc => hf (List.mem_cons_of_mem x hc)
    by_cases hx : P x
    · simp only [List.filterMap_cons, if_pos hx]
      rw [lookup_cons_eq, if_neg hfx]
      exact ih f hft
    · simp only [List.filterMap_cons, if_neg hx]
      exact ih f hft

/-- Lookup in a sparse if-positive filter-mapped vector returns the stored
value exactly when the predicate holds at the key. -/
theorem lookup_filterMap_if {α : Type} (P : String → Prop) [DecidablePred P]
    (c : String → α) :
    ∀ (l : List String) (f : String), f ∈ l →
      (l.filterMap (fun x => if P x then some (x, c x) else none)).lookup f
        = if P f then some (c f) else none := by
  intro l
  induction l with
  | nil => intro f hf; cases hf
  | cons x t ih =>
    intro f hf
    by_cases hx : P x
    · simp only [List.filterMap_cons, if_pos hx]
      rw [lookup_cons_eq]
      by_cases hfx : f = x
      · subst hfx
        rw [if_pos (show f = ((f, c f) : String × α).1 from rfl), if_pos hx]
      · rw [if_neg hfx]
        have hft : f ∈ t := by
          rcases List.mem_cons.mp hf with h | h
          · exact absurd h hfx
          · exact h
        exact ih f hft
    · simp only [List.filterMap_cons, if_neg hx]
      by_cases hft : f ∈ t
      · exact ih f hft
      · have hfx : f = x := by
          rcases List.mem_cons.mp hf with h | h
          · exact h
          · exact absurd h hft
        subst hfx
        rw [lookup_filterMap_if_notin P c t f hft, if_neg hx]

/-- A single self-loop of nonzero weight has no zero-out-weight node. -/
theorem single_self_loop_safe {α : Type} [LinearOrderedField α] (nm i : String) (w : α)
    (hw : w ≠ 0) : ¬ hasZeroOutWeightNode (Graph.mk [Edge.mk nm nm w i]) := by
  unfold hasZeroOutWeightNode
  push_neg
  intro n hn _
  have hnm : n = nm := by
    simp [Graph.nodeList, List.mem_dedup] at hn
    exact hn
  subst hnm
  have hout : outWeight (Graph.mk (α := α) [Edge.mk n n w i]).edges n = w := by
    simp [outWeight, List.filter_cons]
  rw [hout]
  exact hw

/-- Every edge of the built graph matching a connected
(identifier, referencer, definer) triple carries the full multiplier
weight. -/
theorem build_edge_weight_eq {α : Type} [LinearOrderedField α] {sqrtFn : Nat → α}
    {tags : List Tag} {chatFiles mentionedIdents : List String} {ident r d : String}
    (hr : r ∈ refFilesDedup tags ident) {e : Edge α}
    (he : e ∈ (buildDependencyGraph α sqrtFn tags chatFiles mentionedIdents).edges)
    (hsrc : e.src = r) (hdst : e.dst = d) (hid : e.ident = ident) :
    e.weight = calculateIdentifierMultiplier ident mentionedIdents
      * (if 5 < (defFiles tags ident).length then (1 : α) / 10 else 1)
      * (if r ∈ chatFiles then (50 : α) else 1)
      * sqrtFn (numRefs tags ident r) := by
  rcases mem_build_edges he with ⟨i, d1, hrefnil, _, heq⟩ | ⟨i, r1, d1, _, _, _, _, heq⟩
  · subst heq
    have hii : i = ident := hid
    subst hii
    have hrocc : r ∈ refOccurrences tags i := List.mem_dedup.mp hr
    rw [hrefnil] at hrocc
    cases hrocc
  · subst heq
    have hii : i = ident := hid
    have hrr : r1 = r := hsrc
    subst hii
    subst hrr
    rfl

/-- Claim C1: on any built graph and any personalization, the rank
calculation always returns a result: a tier-1 division by zero triggers
the unpersonalized tier-2 retry, whose own division by zero yields the
empty tier-3 map — never a propagated numerical-degeneracy exception. -/
theorem C1_fallback_tiers_never_raise {α : Type} [LinearOrderedField α] (sqrtFn : Nat → α)
    (tags : List Tag) (chatFiles mentionedIdents : List String)
    (rOpt personal : Option (List (String × α))) (alpha tol : α) (maxIter : Nat) :
    (∃ rk, (GraphRanker.mk (some (buildDependencyGraph α sqrtFn tags chatFiles
        mentionedIdents)) rOpt).calculatePagerank personal alpha maxIter tol = .ok rk)
    ∧ (nxPagerank (buildDependencyGraph α sqrtFn tags chatFiles mentionedIdents)
          (filteredPersArgs (buildDependencyGraph α sqrtFn tags chatFiles mentionedIdents)
            personal)
          (filteredPersArgs (buildDependencyGraph α sqrtFn tags chatFiles mentionedIdents)
            personal)
          alpha maxIter tol = .error .divByZero →
        (∀ rk2, nxPagerank (buildDependencyGraph α sqrtFn tags chatFiles mentionedIdents)
            none none alpha maxIter tol = .ok rk2 →
          (GraphRanker.mk (some (buildDependencyGraph α sqrtFn tags chatFiles
            mentionedIdents)) rOpt).calculatePagerank personal alpha maxIter tol = .ok rk2)
        ∧ (nxPagerank (buildDependencyGraph α sqrtFn tags chatFiles mentionedIdents)
            none none alpha maxIter tol = .error .divByZero →
          (GraphRanker.mk (some (buildDependencyGraph α sqrtFn tags chatFiles
            mentionedIdents)) rOpt).calculatePagerank personal alpha maxIter tol
            = .ok [])) := by
  set g := buildDependencyGraph α sqrtFn tags chatFiles mentionedIdents with hgdef
  have hcalc : (GraphRanker.mk (some g) rOpt).calculatePagerank personal alpha maxIter tol
      = match nxPagerank g (filteredPersArgs g personal) (filteredPersArgs g personal)
          alpha maxIter tol with
        | .ok rk1 => .ok rk1
        | .error .divByZero =>
          match nxPagerank g none none alpha maxIter tol with
          | .ok rk1 => .ok rk1
          | .error .divByZero => .ok [] := rfl
  cases h1 : nxPagerank g (filteredPersArgs g personal) (filteredPersArgs g personal)
      alpha maxIter tol with
  | ok rk =>
    refine ⟨⟨rk, by rw [hcalc, h1]⟩, fun hcontra => ?_⟩
    exact Except.noConfusion hcontra
  | error e =>
    cases e
    cases h2 : nxPagerank g none none alpha maxIter tol with
    | ok rk2 =>
      refine ⟨⟨rk2, by rw [hcalc, h1, h2]⟩, fun _ => ⟨?_, ?_⟩⟩
      · intro rk3 h3
        cases h3
        rw [hcalc, h1, h2]
      · intro hc
        exact Except.noConfusion hc
    | error e2 =>
      cases e2
      refine ⟨⟨[], by rw [hcalc, h1, h2]⟩, fun _ => ⟨?_, ?_⟩⟩
      · intro rk3 h3
        exact Except.noConfusion h3
      · intro _
        rw [hcalc, h1, h2]

/-- Witness for C1: a zero-sum personalization dict triggers the tier-1
division by zero and the unpersonalized tier-2 retry succeeds. -/
theorem C1_witness :
    (GraphRanker.mk
        (some (buildDependencyGraph ℚ (fun n => (n : ℚ))
          [Tag.mk "a.py" "/a.py" 1 "foo" "def"] [] [])) none).calculatePagerank
      (some [("a.py", 0)]) 0.85 100 1e-6 = .ok [("a.py", 1)] := by
  have hmain := C1_fallback_tiers_never_raise (α := ℚ) (fun n => (n : ℚ))
    [Tag.mk "a.py" "/a.py" 1 "foo" "def"] [] [] none (some [("a.py", 0)]) 0.85 1e-6 100
  have hg : buildDependencyGraph ℚ (fun n => (n : ℚ))
      [Tag.mk "a.py" "/a.py" 1 "foo" "def"] [] []
      = Graph.mk [Edge.mk "a.py" "a.py" ((1 : ℚ) / 10) "foo"] := rfl
  have hpa : filteredPersArgs
      (buildDependencyGraph ℚ (fun n => (n : ℚ)) [Tag.mk "a.py" "/a.py" 1 "foo" "def"] [] [])
      (some [("a.py", 0)]) = some [("a.py", 0)] := rfl
  have h1 : nxPagerank
      (buildDependencyGraph ℚ (fun n => (n : ℚ)) [Tag.mk "a.py" "/a.py" 1 "foo" "def"] [] [])
      (some [("a.py", 0)]) (some [("a.py", 0)]) 0.85 100 1e-6 = .error .divByZero := by
    rw [hg]
    apply nxPagerank_zero_sum_pers
    · decide
    · exact single_self_loop_safe "a.py" "foo" ((1 : ℚ) / 10) (by norm_num)
    · simp
  have h2 : nxPagerank
      (buildDependencyGraph ℚ (fun n => (n : ℚ)) [Tag.mk "a.py" "/a.py" 1 "foo" "def"] [] [])
      none none 0.85 100 1e-6 = .ok [("a.py", 1)] := by
    rw [hg]
    exact nxPagerank_single_self_loop "a.py" "foo" ((1 : ℚ) / 10) (by norm_num)
      0.85 100 1e-6 (by norm_num)
  exact (hmain.2 (by rw [hpa]; exact h1)).1 [("a.py", 1)] h2

/-- Claim C2: whenever the rank calculation on a built, non-empty graph
returns a non-empty rank map, the ranks sum to 1 up to 1e-2 (here:
exactly 1). -/
theorem C2_rank_mass_conservation {α : Type} [LinearOrderedField α] (sqrtFn : Nat → α)
    (tags : List Tag) (chatFiles mentionedIdents : List String)
    (rOpt personal : Option (List (String × α)))
    (hpwf : ∀ pv, personal = some pv → (pv.map Prod.fst).Nodup)
    (alpha tol : α) (maxIter : Nat) (rk : List (String × α))
    (hgraph : (buildDependencyGraph α sqrtFn tags chatFiles mentionedIdents).nodeList ≠ [])
    (hok : (GraphRanker.mk (some (buildDependencyGraph α sqrtFn tags chatFiles
        mentionedIdents)) rOpt).calculatePagerank personal alpha maxIter tol = .ok rk)
    (hne : rk ≠ []) :
    |(rk.map Prod.snd).sum - 1| ≤ 1 / 100 := by
  rcases calculatePagerank_ok_inv hok with h | h | h
  · exact absurd h hne
  · have hwf := filteredPersArgs_wf
      (g := buildDependencyGraph α sqrtFn tags chatFiles mentionedIdents) hpwf
    have hsum := nxPagerank_ok_sum hwf hwf h hne
    rw [hsum]
    norm_num
  · have hwf : PersWF (buildDependencyGraph α sqrtFn tags chatFiles mentionedIdents)
        (none : Option (List (String × α))) := fun pv hpv => Option.noConfusion hpv
    have hsum := nxPagerank_ok_sum hwf hwf h hne
    rw [hsum]
    norm_num

/-- Witness for C2 at the one-file self-loop repository. -/
theorem C2_witness : |([("a.py", (1 : ℚ))].map Prod.snd).sum - 1| ≤ 1 / 100 := by
  have htier1 := nxPagerank_single_self_loop (α := ℚ) "a.py" "foo" ((1 : ℚ) / 10)
    (by norm_num) 0.85 100 1e-6 (by norm_num)
  have hok : (GraphRanker.mk
      (some (buildDependencyGraph ℚ (fun n => (n : ℚ))
        [Tag.mk "a.py" "/a.py" 1 "foo" "def"] [] [])) none).calculatePagerank
      none 0.85 100 1e-6 = .ok [("a.py", 1)] := by
    rw [show buildDependencyGraph ℚ (fun n => (n : ℚ))
        [Tag.mk "a.py" "/a.py" 1 "foo" "def"] [] []
        = Graph.mk [Edge.mk "a.py" "a.py" ((1 : ℚ) / 10) "foo"] from rfl]
    simp only [GraphRanker.calculatePagerank, filteredPersArgs, htier1]
  exact C2_rank_mass_conservation (fun n => (n : ℚ)) [Tag.mk "a.py" "/a.py" 1 "foo" "def"]
    [] [] none none (fun pv hpv => Option.noConfusion hpv) 0.85 1e-6 100 [("a.py", 1)]
    (by decide) hok (by decide)

/-- Claim C3: every connected (symbol, referencer, definer) pair gets an
edge weighted `multiplier × too-many-definitions penalty × focused boost ×
sqrt(num_refs)`, and with the real square root, 9 references instead of 1
make the weight exactly 3× larger, all other factors held fixed. -/
theorem C3_edge_weight_formula {α : Type} [LinearOrderedField α] (sqrtFn : Nat → α)
    (tags : List Tag) (chatFiles mentionedIdents : List String) (ident r d : String)
    (hr : r ∈ refFilesDedup tags ident) (hd : d ∈ defFiles tags ident) :
    (∃ e ∈ (buildDependencyGraph α sqrtFn tags chatFiles mentionedIdents).edges,
        e.src = r ∧ e.dst = d ∧ e.ident = ident ∧
        e.weight = calculateIdentifierMultiplier ident mentionedIdents
          * (if 5 < (defFiles tags ident).length then (1 : α) / 10 else 1)
          * (if r ∈ chatFiles then (50 : α) else 1)
          * sqrtFn (numRefs tags ident r))
    ∧ (∀ e ∈ (buildDependencyGraph α sqrtFn tags chatFiles mentionedIdents).edges,
        e.src = r → e.dst = d → e.ident = ident →
        e.weight = calculateIdentifierMultiplier ident mentionedIdents
          * (if 5 < (defFiles tags ident).length then (1 : α) / 10 else 1)
          * (if r ∈ chatFiles then (50 : α) else 1)
          * sqrtFn (numRefs tags ident r))
    ∧ (∀ (tagsA tagsB : List Tag) (chatB mentB : List String) (identB rB dB : String),
        rB ∈ refFilesDedup tagsA identB → rB ∈ refFilesDedup tagsB identB →
        (defFiles tagsA identB).length = (defFiles tagsB identB).length →
        numRefs tagsA identB rB = 9 → numRefs tagsB identB rB = 1 →
        ∀ eA ∈ (buildDependencyGraph ℝ (fun n => Real.sqrt n) tagsA chatB mentB).edges,
          eA.src = rB → eA.dst = dB → eA.ident = identB →
          ∀ eB ∈ (buildDependencyGraph ℝ (fun n => Real.sqrt n) tagsB chatB mentB).edges,
            eB.src = rB → eB.dst = dB → eB.ident = identB →
            eA.weight = 3 * eB.weight) := by
  refine ⟨?_, ?_, ?_⟩
  · exact ⟨_, build_edge_exists sqrtFn tags chatFiles mentionedIdents hr hd,
      rfl, rfl, rfl, rfl⟩
  · intro e he hsrc hdst hid
    exact build_edge_weight_eq hr he hsrc hdst hid
  · intro tagsA tagsB chatB mentB identB rB dB hrA hrB hlen h9 h1
    intro eA heA hsA hdA hiA eB heB hsB hdB2 hiB
    have hwA := build_edge_weight_eq hrA heA hsA hdA hiA
    have hwB := build_edge_weight_eq hrB heB hsB hdB2 hiB
    rw [hwA, hwB]
    simp only [h9, h1, hlen]
    have h3 : Real.sqrt ((9 : ℕ) : ℝ) = 3 := by
      rw [show ((9 : ℕ) : ℝ) = (3 : ℝ) ^ 2 by norm_num]
      exact Real.sqrt_sq (by norm_num)
    have hone : Real.sqrt ((1 : ℕ) : ℝ) = 1 := by
      rw [show ((1 : ℕ) : ℝ) = (1 : ℝ) by norm_num]
      exact Real.sqrt_one
    rw [h3, hone]
    ring

/-- Witness for C3: the single connected edge of a two-file repository. -/
theorem C3_witness :
    ∃ e ∈ (buildDependencyGraph ℚ (fun n => (n : ℚ))
        [Tag.mk "y.py" "/y.py" 1 "sym" "def", Tag.mk "x.py" "/x.py" 2 "sym" "ref"]
        [] []).edges,
      e.src = "x.py" ∧ e.dst = "y.py" ∧ e.ident = "sym" ∧
      e.weight = calculateIdentifierMultiplier "sym" []
        * (if 5 < (defFiles
            [Tag.mk "y.py" "/y.py" 1 "sym" "def", Tag.mk "x.py" "/x.py" 2 "sym" "ref"]
            "sym").length then (1 : ℚ) / 10 else 1)
        * (if "x.py" ∈ ([] : List String) then (50 : ℚ) else 1)
        * (fun n => (n : ℚ)) (numRefs
            [Tag.mk "y.py" "/y.py" 1 "sym" "def", Tag.mk "x.py" "/x.py" 2 "sym" "ref"]
            "sym" "x.py") :=
  (C3_edge_weight_formula (fun n => (n : ℚ))
    [Tag.mk "y.py" "/y.py" 1 "sym" "def", Tag.mk "x.py" "/x.py" 2 "sym" "ref"]
    [] [] "sym" "x.py" "y.py" (by decide) (by decide)).1

/-- Claim C6: the personalization vector maps each file of the universe to
the claim's accumulated value (chat boost, max with mentioned boost,
path-match boost over base `BOOST / |all_files|`), omits zero-valued
files, and is empty on an empty universe. -/
theorem C6_personalization_vector {α : Type} [LinearOrderedField α] (boost : α)
    (hb : 0 < boost) (chatFiles mentionedFiles mentionedIdents allFiles : List String)
    (f : String) (hf : f ∈ allFiles) (base v1 v2 v3 : α)
    (hbase : base = boost / (allFiles.length : α))
    (hv1 : v1 = if f ∈ chatFiles then base else 0)
    (hv2 : v2 = if f ∈ mentionedFiles then max v1 base else v1)
    (hv3 : v3 = if pathMatchesMentioned f mentionedIdents then v2 + base else v2) :
    ((createPersonalizationVector α boost chatFiles mentionedFiles mentionedIdents
        allFiles).lookup f = if v3 = 0 then none else some v3)
    ∧ createPersonalizationVector α boost chatFiles mentionedFiles mentionedIdents []
        = [] := by
  subst hv3
  subst hv2
  subst hv1
  subst hbase
  refine ⟨?_, rfl⟩
  have hne : allFiles ≠ [] := List.ne_nil_of_mem hf
  have hlenpos : (0 : α) < (allFiles.length : α) := by
    exact_mod_cast List.length_pos.mpr hne
  have hBpos : 0 < boost / (allFiles.length : α) := div_pos hb hlenpos
  have hBne : boost / (allFiles.length : α) ≠ 0 := ne_of_gt hBpos
  have hnum : (if allFiles ≠ [] then allFiles.length else max 100 chatFiles.length)
      = allFiles.length := if_pos hne
  simp only [createPersonalizationVector, hnum]
  rw [lookup_filterMap_if]
  case a => exact hf
  have hmiR : pathMatchesMentioned f mentionedIdents → mentionedIdents ≠ [] := by
    rintro ⟨c, _, hc⟩
    exact List.ne_nil_of_mem hc
  by_cases h3 : pathMatchesMentioned f mentionedIdents
  · have hmi := hmiR h3
    by_cases h2m : f ∈ mentionedFiles <;> by_cases h1c : f ∈ chatFiles <;>
      simp [h1c, h2m, h3, hmi, zero_add, max_self, max_eq_right hBpos.le,
        add_pos hBpos hBpos, (add_pos hBpos hBpos).ne', hBpos, hBne]
  · by_cases h2m : f ∈ mentionedFiles <;> by_cases h1c : f ∈ chatFiles <;>
      simp [h1c, h2m, h3, zero_add, max_self, max_eq_right hBpos.le, hBpos, hBne]

/-- Witness for C6: a chat file in a two-file universe gets value 50. -/
theorem C6_witness :
    (createPersonalizationVector ℚ 100 ["a.py"] [] [] ["a.py", "b.py"]).lookup "a.py"
      = some 50 := by
  have h := (C6_personalization_vector (α := ℚ) 100 (by norm_num) ["a.py"] [] []
      ["a.py", "b.py"] "a.py" (by decide) 50 50 50 50
      (by norm_num) (by simp) (by simp) (by simp [pathMatchesMentioned])).1
  rw [h, if_neg (by norm_num)]

/-- Claim C10: graph nodes are exactly edge endpoints; a file occurring
only in reference tags of never-defined symbols is absent from the node
set and receives no entry in any rank map computed from the graph, though
it belongs to the tag-derived file universe. -/
theorem C10_unreferenced_file_absent {α : Type} [LinearOrderedField α] (sqrtFn : Nat → α)
    (tags : List Tag) (chatFiles mentionedIdents : List String) (f : String)
    (hocc : ∃ t ∈ tags, t.rel_fname = f)
    (hrefonly : ∀ t ∈ tags, t.rel_fname = f → t.kind = "ref" ∧ defFiles tags t.name = []) :
    f ∈ allFilesOfTags tags
    ∧ (∀ n, n ∈ (buildDependencyGraph α sqrtFn tags chatFiles mentionedIdents).nodeList ↔
        ∃ e ∈ (buildDependencyGraph α sqrtFn tags chatFiles mentionedIdents).edges,
          n = e.src ∨ n = e.dst)
    ∧ f ∉ (buildDependencyGraph α sqrtFn tags chatFiles mentionedIdents).nodeList
    ∧ (∀ (rOpt personal : Option (List (String × α))) (alpha tol : α) (maxIter : Nat)
        (rk : List (String × α)),
        (GraphRanker.mk (some (buildDependencyGraph α sqrtFn tags chatFiles
          mentionedIdents)) rOpt).calculatePagerank personal alpha maxIter tol = .ok rk →
        rk.lookup f = none) := by
  have hnotnode : f ∉ (buildDependencyGraph α sqrtFn tags chatFiles
      mentionedIdents).nodeList := by
    intro hmem
    rcases (mem_nodeList_iff _ f).mp hmem with ⟨e, he, hend⟩
    rcases mem_build_edges he with ⟨i, d, hrefnil, hd, heq⟩
      | ⟨i, r, d, hidef, hiref, hrd, hd, heq⟩
    · subst heq
      have hfd : f = d := by rcases hend with h | h <;> exact h
      rcases mem_defFiles.mp hd with ⟨t, ht, hk, hnm, hrel⟩
      have hkind := (hrefonly t ht (hrel.trans hfd.symm)).1
      rw [hk] at hkind
      exact absurd hkind (by decide)
    · subst heq
      rcases hend with h | h
      · have hrocc : r ∈ refOccurrences tags i := List.mem_dedup.mp hrd
        rcases mem_refOccurrences.mp hrocc with ⟨t, ht, hk, hnm, hrel⟩
        have hdf := (hrefonly t ht (hrel.trans h.symm)).2
        rw [hnm] at hdf
        exact defFiles_ne_nil hidef hdf
      · rcases mem_defFiles.mp hd with ⟨t, ht, hk, hnm, hrel⟩
        have hkind := (hrefonly t ht (hrel.trans h.symm)).1
        rw [hk] at hkind
        exact absurd hkind (by decide)
  refine ⟨?_, fun n => mem_nodeList_iff _ n, hnotnode, ?_⟩
  · rcases hocc with ⟨t, ht, hrel⟩
    exact List.mem_dedup.mpr (List.mem_map.mpr ⟨t, ht, hrel⟩)
  · intro rOpt personal alpha tol maxIter rk hok
    rcases calculatePagerank_ok_inv hok with h | h | h
    · subst h
      rfl
    · exact lookup_eq_none_of_keys_mem (nxPagerank_ok_keys h) hnotnode
    · exact lookup_eq_none_of_keys_mem (nxPagerank_ok_keys h) hnotnode

/-- Witness for C10: a file with one reference tag of an undefined symbol
belongs to the file universe but not to the graph. -/
theorem C10_witness :
    "b.py" ∈ allFilesOfTags [Tag.mk "b.py" "/b.py" 1 "foo" "ref"]
    ∧ "b.py" ∉ (buildDependencyGraph ℚ (fun n => (n : ℚ))
        [Tag.mk "b.py" "/b.py" 1 "foo" "ref"] [] []).nodeList := by
  have h := C10_unreferenced_file_absent (α := ℚ) (fun n => (n : ℚ))
    [Tag.mk "b.py" "/b.py" 1 "foo" "ref"] [] [] "b.py"
    ⟨Tag.mk "b.py" "/b.py" 1 "foo" "ref", by decide, rfl⟩ (by decide)
  exact ⟨h.1, h.2.2.1⟩

/-- Witness for C7 at a concrete square-root function. -/
theorem C7_witness :
    (buildDependencyGraph ℚ (fun n => (n : ℚ)) [Tag.mk "a.py" "/a.py" 1 "foo" "def"]
        [] []).edges = [Edge.mk "a.py" "a.py" ((1 : ℚ) / 10) "foo"] :=
  (C7_single_isolated_definition (fun n => (n : ℚ))).1

/-- Witness for C8 at concrete arguments. -/
theorem C8_witness :
    (GraphRanker.mk (α := ℚ) none none).calculatePagerank none 0.85 100 1e-6
      = .error .mustBuildGraphFirst :=
  (C8_call_sequence_errors (α := ℚ) none none none 0.85 1e-6 100 [] (Graph.mk [])).1
